/-
  Verification of the ClangBuildAnalyzer trace ingestion and aggregation
  engine (src/BuildEvents.h, src/main.cpp) against its specification.

  The data model (BuildEventType, BuildEvent, the IndexedVector store) is
  embedded from src/BuildEvents.h.  The per-file analysis loop, the trace
  file finder and CompareIgnoreNewlines are embedded from src/main.cpp.
  The name interner, the tree-reconstruction parser and the aggregator are
  implemented in translation units that are not part of this tree
  (BuildEvents.cpp, Analysis.cpp); those are modelled from the
  specification, as marked on each definition.
-/
import Mathlib

namespace ClangBuildAnalyzer

/-- Event kinds, from enum class BuildEventType in src/BuildEvents.h. -/
inductive BuildEventType where
  | kUnknown
  | kCompiler
  | kFrontend
  | kBackend
  | kParseFile
  | kParseTemplate
  | kParseClass
  | kInstantiateClass
  | kInstantiateFunction
  | kOptModule
  | kOptFunction
deriving DecidableEq, Repr

/-- One event record, from struct BuildEvent in src/BuildEvents.h.
DetailIndex is a plain index into the name table (int in the source,
always allocated non-negative, so Nat here); the parent EventIndex keeps
the source representation: an int whose default -1 is the sentinel. -/
structure BuildEvent where
  type : BuildEventType := .kUnknown
  ts : Int := 0
  dur : Int := 0
  detailIndex : Nat := 0
  parent : Int := -1
  children : List Int := []
deriving DecidableEq, Repr

/-- Indexing of IndexedVector (src/BuildEvents.h): begin()[pos.idx].
The source performs the access unchecked; an index outside the vector has
no defined value, modelled as none. -/
def indexedGet {T : Type} (v : List T) (i : Int) : Option T :=
  if 0 ≤ i then v[i.toNat]? else none

/-- Appending one record to the store; the returned handle is the
position at which the record was placed. -/
def append {T : Type} (v : List T) (r : T) : List T × Int :=
  (v ++ [r], (v.length : Int))

/-! ## Name interner

BuildNames is a boost::bimap from strings to DetailIndex
(src/BuildEvents.h line 86); the code that populates it lives in
BuildEvents.cpp, which is not part of this tree. -/

/-- Position of the first occurrence of s, if any. -/
def findIdx2 (s : String) : List String → Option Nat
  | [] => none
  | x :: xs => if x = s then some 0 else (findIdx2 s xs).map (· + 1)

/-- Modelled from the spec: the Name Interner contract (§4.1) over the
BuildNames bimap of src/BuildEvents.h, whose populating code
(BuildEvents.cpp) is not in this tree.  intern returns the existing handle
when the string was seen before, otherwise allocates the next handle. -/
def intern (names : List String) (s : String) : List String × Nat :=
  match findIdx2 s names with
  | some i => (names, i)
  | none => (names ++ [s], names.length)

/-- Modelled from the spec: resolve (§4.1) maps a handle back to its
string; the bimap right-to-left direction. -/
def resolve (names : List String) (i : Nat) : Option String :=
  names[i]?

theorem findIdx2_some_get {s : String} : ∀ {names : List String} {i : Nat},
    findIdx2 s names = some i → names[i]? = some s := by
  intro names
  induction names with
  | nil => intro i h; simp [findIdx2] at h
  | cons x xs ih =>
    intro i h
    by_cases hx : x = s
    · simp [findIdx2, hx] at h
      subst h
      simp [hx]
    · simp [findIdx2, hx] at h
      obtain ⟨j, hj, hji⟩ := h
      subst hji
      simpa using ih hj

theorem findIdx2_none_not_mem {s : String} : ∀ {names : List String},
    findIdx2 s names = none → s ∉ names := by
  intro names
  induction names with
  | nil => intro _; simp
  | cons x xs ih =>
    intro h
    by_cases hx : x = s
    · simp [findIdx2, hx] at h
    · simp [findIdx2, hx] at h
      simp [ih h, Ne.symm hx]

theorem findIdx2_append_self {s : String} {names : List String}
    (h : findIdx2 s names = none) :
    findIdx2 s (names ++ [s]) = some names.length := by
  induction names with
  | nil => simp [findIdx2]
  | cons x xs ih =>
    by_cases hx : x = s
    · simp [findIdx2, hx] at h
    · simp [findIdx2, hx] at h ⊢
      exact ih h

/-- Interning leaves every existing entry in place: the new name list
extends the old one. -/
theorem intern_resolve_stable (names : List String) (s : String)
    {i : Nat} {x : String} (h : resolve names i = some x) :
    resolve (intern names s).1 i = some x := by
  unfold intern
  cases hf : findIdx2 s names with
  | some j => simpa [resolve] using h
  | none =>
    simp only [resolve] at h ⊢
    have hi : i < names.length := by
      by_contra hlt
      simp [List.getElem?_eq_none (Nat.le_of_not_lt hlt)] at h
    rw [List.getElem?_append, if_pos hi]
    exact h

/-- Resolving the handle just returned by intern yields the interned
string. -/
theorem intern_resolve (names : List String) (s : String) :
    resolve (intern names s).1 (intern names s).2 = some s := by
  unfold intern
  cases hf : findIdx2 s names with
  | some i => simpa [resolve] using findIdx2_some_get hf
  | none => simp [resolve]

/-- Interning a string a second time returns the same handle and leaves
the table unchanged. -/
theorem intern_idempotent (names : List String) (s : String) :
    intern (intern names s).1 s = ((intern names s).1, (intern names s).2) := by
  unfold intern
  cases hf : findIdx2 s names with
  | some i => simp [intern, hf]
  | none => simp [intern, findIdx2_append_self hf]

/-- C1.  Interning bijection: resolving the handle returned by intern
yields the interned string; interning the same string twice returns the
same handle (and the same table); and interning two distinct strings in
sequence yields distinct handles. -/
theorem interning_bijection (names : List String) (s s1 s2 : String)
    (hne : s1 ≠ s2) :
    resolve (intern names s).1 (intern names s).2 = some s
    ∧ intern (intern names s).1 s = ((intern names s).1, (intern names s).2)
    ∧ (intern (intern names s1).1 s2).2 ≠ (intern names s1).2 := by
  refine ⟨intern_resolve names s, intern_idempotent names s, ?_⟩
  intro heq
  have h1 : resolve (intern names s1).1 (intern names s1).2 = some s1 :=
    intern_resolve names s1
  have h2 : resolve (intern (intern names s1).1 s2).1
      (intern (intern names s1).1 s2).2 = some s2 :=
    intern_resolve (intern names s1).1 s2
  have h1' : resolve (intern (intern names s1).1 s2).1 (intern names s1).2
      = some s1 :=
    intern_resolve_stable (intern names s1).1 s2 h1
  rw [heq] at h2
  rw [h1'] at h2
  exact hne (Option.some.inj h2)

/-- Witness for C1 at concrete inputs. -/
theorem interning_bijection_witness :
    resolve (intern ["a"] "b").1 (intern ["a"] "b").2 = some "b"
    ∧ intern (intern ["a"] "b").1 "b"
        = ((intern ["a"] "b").1, (intern ["a"] "b").2)
    ∧ (intern (intern ["a"] "b").1 "c").2 ≠ (intern ["a"] "b").2 :=
  interning_bijection ["a"] "b" "b" "c" (by decide)

/-! ## Event store indexing (C8)

IndexedVector (src/BuildEvents.h lines 79-85) is a vector indexed through
handle structs; handles are produced by appending records. -/

/-- C8.  Indexing the store with a handle obtained from append returns the
appended record; the handle stays valid (returns the same record) after
further appends; and indexing with an out-of-range handle yields no value.
(The O(1) cost of the access is a complexity property outside the model.) -/
theorem indexed_store_access {T : Type} (v : List T) (r x : T) (i j : Int)
    (hi : indexedGet v i = some x) (hj : j < 0 ∨ (v.length : Int) ≤ j) :
    indexedGet (append v r).1 (append v r).2 = some r
    ∧ indexedGet (append v r).1 i = some x
    ∧ indexedGet v j = none := by
  refine ⟨?_, ?_, ?_⟩
  · simp [append, indexedGet]
  · unfold indexedGet at hi ⊢
    by_cases h0 : 0 ≤ i
    · simp only [h0, if_true] at hi ⊢
      have hlt : i.toNat < v.length := by
        by_contra hlt
        simp [List.getElem?_eq_none (Nat.le_of_not_lt hlt)] at hi
      simp [append, List.getElem?_append, hlt, hi]
    · simp [h0] at hi
  · unfold indexedGet
    rcases hj with hj | hj
    · simp [Int.not_le.mpr hj]
    · by_cases h0 : 0 ≤ j
      · have : v.length ≤ j.toNat := by omega
        simp [h0, List.getElem?_eq_none this]
      · simp [h0]

/-- Witness for C8 at concrete inputs. -/
theorem indexed_store_access_witness :
    indexedGet (append [10, 20] 30).1 (append [10, 20] 30).2 = some 30
    ∧ indexedGet (append [10, 20] 30).1 1 = some 20
    ∧ indexedGet [10, 20] 5 = none :=
  indexed_store_access [10, 20] 30 20 1 5 (by decide) (by decide)

/-! ## Trace parser tree reconstruction (C2)

ParseBuildEvents is declared in src/BuildEvents.h line 89; its body
(BuildEvents.cpp) is not in this tree, so the reconstruction algorithm is
modelled from spec §4.3 step 3: a stack of open events, popped until the
top's interval contains the new event's interval. -/

/-- One record of the flat per-file event list, before nesting is
reconstructed: kind, start timestamp, duration and interned detail. -/
structure RawEvent where
  type : BuildEventType := .kUnknown
  ts : Int := 0
  dur : Int := 0
  detailIndex : Nat := 0
deriving DecidableEq, Repr

/-- Interval containment check: the parent's span covers the event's. -/
def containsB (p : BuildEvent) (e : RawEvent) : Bool :=
  decide (p.ts ≤ e.ts) && decide (e.ts + e.dur ≤ p.ts + p.dur)

/-- Modelled from the spec: §4.3 step 3, popping the stack of open events
until the event on top contains the new event (or the stack empties). -/
def popUntil (events : List BuildEvent) (stack : List Nat) (e : RawEvent) :
    List Nat :=
  match stack with
  | [] => []
  | top :: rest =>
    match events[top]? with
    | some pe => if containsB pe e then top :: rest else popUntil events rest e
    | none => popUntil events rest e

/-- Record index c as an additional child of the event at index i. -/
def addChildAt : List BuildEvent → Nat → Int → List BuildEvent
  | [], _, _ => []
  | ev :: evs, 0, c => { ev with children := ev.children ++ [c] } :: evs
  | ev :: evs, n + 1, c => ev :: addChildAt evs n c

/-- Parser state: the shared event store plus the per-file stack of
indices of currently open events (top first). -/
structure ParseState where
  events : List BuildEvent := []
  stack : List Nat := []
deriving DecidableEq, Repr

/-- Modelled from the spec: §4.3 step 3, committing one flat event.  The
stack is popped until the top contains the new event; the new event is
appended as a child of the remaining top (or as a root when the stack is
empty) and pushed onto the stack. -/
def addEvent (st : ParseState) (e : RawEvent) : ParseState :=
  let stack := popUntil st.events st.stack e
  let idx := st.events.length
  let parent : Int := match stack with
    | [] => -1
    | top :: _ => (top : Int)
  let newEv : BuildEvent :=
    { type := e.type, ts := e.ts, dur := e.dur, detailIndex := e.detailIndex
      parent := parent, children := [] }
  let events1 := st.events ++ [newEv]
  let events2 := match stack with
    | [] => events1
    | top :: _ => addChildAt events1 top (idx : Int)
  { events := events2, stack := idx :: stack }

/-- Modelled from the spec: parsing one file's flat, chronologically
ordered event list into the shared store; each file starts with an empty
stack and contributes its reconstructed subtrees as additional roots. -/
def parseFileEvents (events : List BuildEvent) (raws : List RawEvent) :
    List BuildEvent :=
  (raws.foldl addEvent { events := events, stack := [] }).events

/-- Containment invariant over a store: every event whose parent handle is
not the sentinel points at an event whose interval contains its own. -/
@[reducible] def Contained (events : List BuildEvent) : Prop :=
  ∀ (i : Nat) (e : BuildEvent), events[i]? = some e → e.parent ≠ -1 →
    ∃ p, events[e.parent.toNat]? = some p
      ∧ p.ts ≤ e.ts ∧ e.ts + e.dur ≤ p.ts + p.dur

theorem addChildAt_getElem (c : Int) :
    ∀ (events : List BuildEvent) (i j : Nat),
    (addChildAt events i c)[j]? = (events[j]?).map
      (fun ev => if j = i then { ev with children := ev.children ++ [c] } else ev) := by
  intro events
  induction events with
  | nil => intro i j; simp [addChildAt]
  | cons ev evs ih =>
    intro i j
    cases i with
    | zero =>
      cases j with
      | zero => simp [addChildAt]
      | succ j => simp [addChildAt, Nat.succ_ne_zero]
    | succ i =>
      cases j with
      | zero => simp [addChildAt, (Nat.succ_ne_zero i).symm]
      | succ j =>
        simp only [addChildAt, List.getElem?_cons_succ, ih i j]
        by_cases hji : j = i
        · simp [hji]
        · simp [hji, Nat.succ_ne_succ.mpr hji]

theorem popUntil_head {events : List BuildEvent} {e : RawEvent} :
    ∀ {stack : List Nat} {top : Nat} {rest : List Nat},
    popUntil events stack e = top :: rest →
    ∃ pe, events[top]? = some pe ∧ containsB pe e = true := by
  intro stack
  induction stack with
  | nil => intro top rest h; simp [popUntil] at h
  | cons t ts ih =>
    intro top rest h
    unfold popUntil at h
    cases hpe : events[t]? with
    | some pe =>
      rw [hpe] at h
      by_cases hc : containsB pe e
      · simp [hc] at h
        obtain ⟨h1, h2⟩ := h
        subst h1
        exact ⟨pe, hpe, hc⟩
      · simp [hc] at h
        exact ih h
    | none =>
      rw [hpe] at h
      exact ih h

theorem getElem?_lt {T : Type} {l : List T} {i : Nat} {x : T}
    (h : l[i]? = some x) : i < l.length := by
  by_contra hge
  rw [List.getElem?_eq_none (Nat.le_of_not_lt hge)] at h
  exact Option.noConfusion h

theorem addChildAt_fields {c : Int} {events : List BuildEvent} {i j : Nat}
    {ev : BuildEvent} (h : (addChildAt events i c)[j]? = some ev) :
    ∃ old, events[j]? = some old
      ∧ ev.ts = old.ts ∧ ev.dur = old.dur ∧ ev.parent = old.parent := by
  rw [addChildAt_getElem] at h
  cases hold : events[j]? with
  | none => rw [hold] at h; exact Option.noConfusion h
  | some old =>
    rw [hold] at h
    simp only [Option.map_some'] at h
    injection h with h
    by_cases hji : j = i
    · rw [if_pos hji] at h
      exact ⟨old, rfl, by rw [← h], by rw [← h], by rw [← h]⟩
    · rw [if_neg hji] at h
      exact ⟨old, rfl, by rw [← h], by rw [← h], by rw [← h]⟩

theorem addChildAt_some (top : Nat) (c : Int) {events : List BuildEvent}
    {j : Nat} {p : BuildEvent} (hp : events[j]? = some p) :
    ∃ q, (addChildAt events top c)[j]? = some q
      ∧ q.ts = p.ts ∧ q.dur = p.dur := by
  by_cases hji : j = top
  · refine ⟨{ p with children := p.children ++ [c] }, ?_, rfl, rfl⟩
    rw [addChildAt_getElem, hp]
    simp [hji]
  · refine ⟨p, ?_, rfl, rfl⟩
    rw [addChildAt_getElem, hp]
    simp [hji]

/-- Appending a root event (sentinel parent) preserves containment. -/
theorem contained_append_root (events : List BuildEvent) (ne : BuildEvent)
    (hne : ne.parent = -1) (h : Contained events) :
    Contained (events ++ [ne]) := by
  intro i ev hi hpar
  by_cases hlt : i < events.length
  · rw [List.getElem?_append_left hlt] at hi
    obtain ⟨p, hp, hc1, hc2⟩ := h i ev hi hpar
    have hplt : ev.parent.toNat < events.length := getElem?_lt hp
    exact ⟨p, by rw [List.getElem?_append_left hplt]; exact hp, hc1, hc2⟩
  · have hilt : i < events.length + 1 := by
      have h2 := getElem?_lt hi
      simpa using h2
    have hieq : i = events.length := by omega
    subst hieq
    rw [List.getElem?_concat_length] at hi
    injection hi with hi
    rw [← hi] at hpar
    exact absurd hne hpar

/-- Appending an event whose parent is an existing event that contains its
interval, and registering it as a child there, preserves containment. -/
theorem contained_append_child (events : List BuildEvent) (ne : BuildEvent)
    (top : Nat) (pe : BuildEvent) (c : Int)
    (hpe : events[top]? = some pe)
    (hts : pe.ts ≤ ne.ts) (hdur : ne.ts + ne.dur ≤ pe.ts + pe.dur)
    (hparent : ne.parent = (top : Int))
    (h : Contained events) :
    Contained (addChildAt (events ++ [ne]) top c) := by
  intro i ev hi hpar
  obtain ⟨old, hold, hts2, hdur2, hparent2⟩ := addChildAt_fields hi
  by_cases hlt : i < events.length
  · rw [List.getElem?_append_left hlt] at hold
    have hop : old.parent ≠ -1 := by rw [hparent2] at hpar; exact hpar
    obtain ⟨p, hp, hc1, hc2⟩ := h i old hold hop
    have hplt : old.parent.toNat < events.length := getElem?_lt hp
    have hpE : (events ++ [ne])[old.parent.toNat]? = some p := by
      rw [List.getElem?_append_left hplt]; exact hp
    obtain ⟨q, hq, hqts, hqdur⟩ := addChildAt_some top c hpE
    refine ⟨q, ?_, ?_, ?_⟩
    · rw [hparent2]; exact hq
    · rw [hqts, hts2]; exact hc1
    · rw [hts2, hdur2, hqts, hqdur]; exact hc2
  · have hilt : i < events.length + 1 := by
      have h2 := getElem?_lt hold
      simpa using h2
    have hieq : i = events.length := by omega
    subst hieq
    rw [List.getElem?_concat_length] at hold
    injection hold with hold
    have htoplt : top < events.length := getElem?_lt hpe
    have hpeE : (events ++ [ne])[top]? = some pe := by
      rw [List.getElem?_append_left htoplt]; exact hpe
    obtain ⟨q, hq, hqts, hqdur⟩ := addChildAt_some top c hpeE
    have hptop : ev.parent.toNat = top := by
      rw [hparent2, ← hold, hparent]
      simp
    refine ⟨q, ?_, ?_, ?_⟩
    · rw [hptop]; exact hq
    · rw [hqts, hts2, ← hold]; exact hts
    · rw [hts2, hdur2, ← hold, hqts, hqdur]; exact hdur

theorem addEvent_preserves_contained {st : ParseState} {e : RawEvent}
    (h : Contained st.events) : Contained (addEvent st e).events := by
  unfold addEvent
  cases hstk : popUntil st.events st.stack e with
  | nil =>
    simp only [hstk]
    exact contained_append_root st.events _ rfl h
  | cons top rest =>
    simp only [hstk]
    obtain ⟨pe, hpe, hcont⟩ := popUntil_head hstk
    have hc := hcont
    simp only [containsB, Bool.and_eq_true, decide_eq_true_eq] at hc
    exact contained_append_child st.events _ top pe _ hpe hc.1 hc.2 rfl h

/-- C2.  Containment invariant: starting from an empty store, parsing any
sequence of files (each a flat list of raw events) yields a store in which
every event with a non-sentinel parent lies inside its parent's interval. -/
theorem parse_containment (files : List (List RawEvent)) (i : Nat)
    (e : BuildEvent) (hi : (files.foldl parseFileEvents [])[i]? = some e)
    (hpar : e.parent ≠ -1) :
    ∃ p, (files.foldl parseFileEvents [])[e.parent.toNat]? = some p
      ∧ p.ts ≤ e.ts ∧ e.ts + e.dur ≤ p.ts + p.dur := by
  suffices h : ∀ (fs : List (List RawEvent)) (init : List BuildEvent),
      Contained init → Contained (fs.foldl parseFileEvents init) by
    exact h files [] (by intro i e hi; simp at hi) i e hi hpar
  intro fs
  induction fs with
  | nil => intro init h; simpa using h
  | cons f fs ih =>
    intro init h
    refine ih (parseFileEvents init f) ?_
    unfold parseFileEvents
    suffices h2 : ∀ (raws : List RawEvent) (st : ParseState),
        Contained st.events → Contained (raws.foldl addEvent st).events by
      exact h2 f { events := init, stack := [] } h
    intro raws
    induction raws with
    | nil => intro st hst; simpa using hst
    | cons r rs ihr =>
      intro st hst
      exact ihr (addEvent st r) (addEvent_preserves_contained hst)

/-- Witness for C2 at a concrete input: one file with an outer event and a
nested inner event; the inner event's parent is the outer event. -/
theorem parse_containment_witness :
    (([[{ ts := 0, dur := 100 }, { ts := 10, dur := 20 }]] :
        List (List RawEvent)).foldl parseFileEvents [])[1]?
      = some { ts := 10, dur := 20, parent := 0,
               children := [] }
    ∧ ∃ p, (([[{ ts := 0, dur := 100 }, { ts := 10, dur := 20 }]] :
        List (List RawEvent)).foldl parseFileEvents [])[(0 : Int).toNat]?
          = some p ∧ p.ts ≤ (10 : Int) ∧ (10 : Int) + 20 ≤ p.ts + p.dur := by
  constructor
  · decide
  · exact parse_containment [[{ ts := 0, dur := 100 }, { ts := 10, dur := 20 }]]
      1 { ts := 10, dur := 20, parent := 0, children := [] }
      (by decide) (by decide)

/-! ## The per-file analysis loop of RunAnalyze (src/main.cpp 172-232)

RunAnalyze reads each candidate file, skips unreadable files with a
warning, skips files without the clang producer marker, parses the rest
into the shared store, prints a note when the store is empty after a
parse, then calls DoAnalysis and returns 0.  ParseBuildEvents is external
to this tree, so the loop is parameterized over the parser's effect on the
shared (events, names) pair. -/

/-- The clang producer marker looked up with strstr
(src/main.cpp line 214). -/
def clangMarker : String :=
  "\x7b\"cat\":\"\",\"pid\":1,\"tid\":0,\"ts\":0,\"ph\":\"M\",\"name\":\"process_name\",\"args\":\x7b\"name\":\"clang\"\x7d\x7d"

/-- strstr: pat occurs as a contiguous run inside the character list. -/
def hasSubstr (pat : List Char) : List Char → Bool
  | [] => pat.isEmpty
  | c :: rest => pat.isPrefixOf (c :: rest) || hasSubstr pat rest

/-- strstr(str, clangMarker) != NULL: the marker occurs in the text. -/
def hasClangMarker (s : String) : Bool :=
  hasSubstr clangMarker.toList s.toList

/-- The effect of one ParseBuildEvents call on the shared store and name
table, given the file name and its text. -/
def ParserModel : Type :=
  String → String → List BuildEvent × List String → List BuildEvent × List String

/-- The warning printed for an unreadable file (src/main.cpp line 208). -/
def warnCouldNotRead (path : String) : String :=
  "WARN: could not read file " ++ path

/-- The note printed when the store is empty after a parse
(src/main.cpp line 221). -/
def warnNoTraceEvents : String :=
  "no trace events found."

/-- The fatal message when no candidate .json files exist
(src/main.cpp line 199). -/
def errNoJsonFiles : String :=
  "ERROR: no clang -ftime-trace .json files found."

/-- State threaded through the per-file loop: the shared store and name
table plus the diagnostics printed so far. -/
structure LoopState where
  events : List BuildEvent := []
  names : List String := []
  msgs : List String := []
deriving DecidableEq, Repr

/-- One iteration of the loop over jsonFiles.files
(src/main.cpp lines 203-224). -/
def processFile (parse : ParserModel) (read : String → String)
    (st : LoopState) (path : String) : LoopState :=
  let str := read path
  if str = "" then
    { st with msgs := st.msgs ++ [warnCouldNotRead path] }
  else if hasClangMarker str = false then
    st
  else
    let res := parse path str (st.events, st.names)
    if res.1.isEmpty then
      { events := res.1, names := res.2, msgs := st.msgs ++ [warnNoTraceEvents] }
    else
      { events := res.1, names := res.2, msgs := st.msgs }

/-- Result of RunAnalyze past the session-file read: return code, final
store, diagnostics, and whether DoAnalysis was invoked. -/
structure AnalyzeResult where
  ret : Int
  events : List BuildEvent
  names : List String
  msgs : List String
  analysisRun : Bool
deriving DecidableEq, Repr

/-- RunAnalyze (src/main.cpp lines 172-232) after the candidate set is
built: empty candidate set is a fatal error; otherwise every file is
processed in order and DoAnalysis runs on whatever was accumulated. -/
def runAnalyze (parse : ParserModel) (read : String → String)
    (paths : List String) : AnalyzeResult :=
  if paths.isEmpty then
    { ret := 1, events := [], names := [], msgs := [errNoJsonFiles],
      analysisRun := false }
  else
    let st := paths.foldl (processFile parse read) {}
    { ret := 0, events := st.events, names := st.names, msgs := st.msgs,
      analysisRun := true }

/-- A parser effect that contributes nothing. -/
def parseNone : ParserModel := fun _ _ st => st

/-- C3 counterexample: one candidate file whose content lacks the
producer marker.  Zero events are parsed, yet the run returns 0
(success) and still invokes the analysis — no hard error is reported. -/
theorem no_events_still_succeeds :
    hasClangMarker "x" = false
    ∧ (runAnalyze parseNone (fun _ => "x") ["a.json"]).ret = 0
    ∧ (runAnalyze parseNone (fun _ => "x") ["a.json"]).events = []
    ∧ (runAnalyze parseNone (fun _ => "x") ["a.json"]).analysisRun = true := by
  refine ⟨by decide, by decide, by decide, by decide⟩

/-- C3 (amended).  The return code of the analysis run depends only on
whether any candidate .json file was found: with no candidates it fails
with 1, with candidates it returns success 0 and invokes DoAnalysis even
when zero usable events were parsed from them. -/
theorem analyze_ret_code (parse : ParserModel) (read : String → String)
    (paths : List String) :
    (runAnalyze parse read paths).ret = (if paths.isEmpty then 1 else 0)
    ∧ (runAnalyze parse read paths).analysisRun = !paths.isEmpty := by
  unfold runAnalyze
  by_cases h : paths.isEmpty
  · simp [h]
  · simp [h]

/-- C4 counterexample: a readable file without the producer marker is
skipped without any warning — the loop state (including the printed
diagnostics) is exactly unchanged. -/
theorem marker_reject_counterexample :
    hasClangMarker "x" = false
    ∧ processFile parseNone (fun _ => "x") {} "a.json" = {} := by
  refine ⟨by decide, by decide⟩

/-- C4 (amended).  A readable document without the producer marker is
skipped silently: it contributes no events and no names, no warning is
printed for it, and the run continues with the remaining files (the loop
state is unchanged). -/
theorem marker_reject_silent (parse : ParserModel) (read : String → String)
    (st : LoopState) (path : String)
    (hread : read path ≠ "") (hmark : hasClangMarker (read path) = false) :
    processFile parse read st path = st := by
  unfold processFile
  simp [hread, hmark]

/-- Witness for the amended C4 at concrete inputs. -/
theorem marker_reject_silent_witness :
    ((fun _ => "x") "a.json" ≠ "" ∧ hasClangMarker ((fun _ => "x") "a.json") = false)
    ∧ processFile parseNone (fun _ => "x") {} "a.json" = {} :=
  ⟨⟨by decide, by decide⟩,
    marker_reject_silent parseNone (fun _ => "x") {} "a.json" (by decide) (by decide)⟩

/-- A parser effect that appends one event for the file named a.json and
nothing for any other file. -/
def parseStubA : ParserModel := fun path _ st =>
  if path = "a.json" then (st.1 ++ [{ ts := 0 }], st.2) else st

/-- C7 counterexample: two files with the producer marker; the first
contributes one event, the second contributes none.  The second file's
own contribution is empty, yet no warning is printed, because the check
looks at the shared store (non-empty from the first file), not at the
per-file contribution. -/
theorem per_file_warning_counterexample :
    (runAnalyze parseStubA (fun _ => clangMarker) ["a.json", "b.json"]).msgs = []
    ∧ (runAnalyze parseStubA (fun _ => clangMarker) ["a.json", "b.json"]).events
        = (runAnalyze parseStubA (fun _ => clangMarker) ["a.json"]).events := by
  refine ⟨by decide, by decide⟩

/-- C7 (amended).  The "no trace events found" note after parsing a file
is printed exactly when the shared Event Store is empty after that parse —
i.e. when that file and all files before it contributed zero events — not
when the file's own contribution alone is empty. -/
theorem per_file_warning_condition (parse : ParserModel)
    (read : String → String) (st : LoopState) (path : String) :
    (processFile parse read st path).msgs = st.msgs ++
      (if read path = "" then [warnCouldNotRead path]
       else if hasClangMarker (read path) = false then []
       else if (parse path (read path) (st.events, st.names)).1.isEmpty then
         [warnNoTraceEvents]
       else []) := by
  unfold processFile
  by_cases h1 : read path = ""
  · simp [h1]
  · by_cases h2 : hasClangMarker (read path)
    · simp only [h1, h2, if_neg, if_false]
      by_cases h3 : (parse path (read path) (st.events, st.names)).1.isEmpty
      · simp [h1, h2, h3]
      · simp [h1, h2, h3]
    · simp [h1, h2]

/-! ## Trace file selection: JsonFileFinder (src/main.cpp 110-149) -/

/-- What OnFile observes about one file reported by cf_traverse: its
path, the cf_get_ext result and the cf_get_file_time result (none when
the call fails / returns NULL). -/
structure CfFile where
  path : String
  ext : Option String
  mtime : Option Int
deriving DecidableEq, Repr

/-- Finder state (src/main.cpp lines 110-115): session time window and
the std::set of selected paths, kept sorted without duplicates. -/
structure JsonFileFinder where
  startTime : Int := 0
  endTime : Int := 0
  files : List String := []
deriving DecidableEq, Repr

/-- std::set<std::string>::insert on the sorted representation. -/
def setInsert (x : String) : List String → List String
  | [] => [x]
  | y :: ys =>
    if x < y then x :: y :: ys
    else if x = y then y :: ys
    else y :: setInsert x ys

/-- std::replace of backslash with forward slash over the path
(src/main.cpp line 139). -/
def normalizeSlashes (p : String) : String :=
  String.map (fun c => if c = '\\' then '/' else c) p

/-- JsonFileFinder::OnFile (src/main.cpp lines 116-142): keep the file
when the extension is exactly ".json", the modification time is readable
and lies within [startTime, endTime]; insert the slash-normalized path. -/
def OnFile (finder : JsonFileFinder) (f : CfFile) : JsonFileFinder :=
  match f.ext with
  | none => finder
  | some e =>
    if e ≠ ".json" then finder
    else
      match f.mtime with
      | none => finder
      | some t =>
        if t < finder.startTime ∨ t > finder.endTime then finder
        else { finder with
          files := setInsert (normalizeSlashes f.path) finder.files }

/-- The selection condition of OnFile, as one predicate. -/
def Keeps (startTime endTime : Int) (f : CfFile) : Prop :=
  f.ext = some ".json"
  ∧ ∃ t, f.mtime = some t ∧ startTime ≤ t ∧ t ≤ endTime

theorem mem_setInsert (x p : String) : ∀ (l : List String),
    p ∈ setInsert x l ↔ p = x ∨ p ∈ l := by
  intro l
  induction l with
  | nil => simp [setInsert]
  | cons y ys ih =>
    unfold setInsert
    by_cases h1 : x < y
    · simp [h1]
    · by_cases h2 : x = y
      · subst h2
        simp [h1, List.mem_cons]
      · simp [h1, h2, List.mem_cons, ih]
        tauto

theorem sorted_setInsert (x : String) : ∀ {l : List String},
    l.Sorted (· < ·) → (setInsert x l).Sorted (· < ·) := by
  intro l
  induction l with
  | nil => intro _; simp [setInsert]
  | cons y ys ih =>
    intro hs
    rw [List.sorted_cons] at hs
    unfold setInsert
    by_cases h1 : x < y
    · rw [if_pos h1, List.sorted_cons]
      refine ⟨?_, by rw [List.sorted_cons]; exact hs⟩
      intro b hb
      rcases List.mem_cons.mp hb with hby | hbys
      · subst hby; exact h1
      · exact lt_trans h1 (hs.1 b hbys)
    · by_cases h2 : x = y
      · rw [if_neg h1, if_pos h2, List.sorted_cons]
        exact hs
      · have hyx : y < x := by
          rcases lt_trichotomy x y with h | h | h
          · exact absurd h h1
          · exact absurd h h2
          · exact h
        rw [if_neg h1, if_neg h2, List.sorted_cons]
        constructor
        · intro b hb
          rcases (mem_setInsert x b ys).mp hb with hbx | hbys
          · subst hbx; exact hyx
          · exact hs.1 b hbys
        · exact ih hs.2

theorem onFile_keeps (finder : JsonFileFinder) (f : CfFile)
    (hk : Keeps finder.startTime finder.endTime f) :
    OnFile finder f = { finder with
      files := setInsert (normalizeSlashes f.path) finder.files } := by
  obtain ⟨hext, t, hmt, h1, h2⟩ := hk
  unfold OnFile
  rw [hext, hmt]
  have hc : ¬(t < finder.startTime ∨ t > finder.endTime) := by omega
  simp [hc]

theorem onFile_skips (finder : JsonFileFinder) (f : CfFile)
    (hk : ¬ Keeps finder.startTime finder.endTime f) :
    OnFile finder f = finder := by
  unfold OnFile
  cases hext : f.ext with
  | none => rfl
  | some e =>
    by_cases he : e = ".json"
    · subst he
      cases hmt : f.mtime with
      | none => simp
      | some t =>
        have hc : t < finder.startTime ∨ t > finder.endTime := by
          by_contra hcc
          push_neg at hcc
          exact hk ⟨hext, t, hmt, hcc.1, hcc.2⟩
        simp [hc]
    · simp [he]

/-- C10.  OnFile inserts the slash-normalized path exactly when the file
extension is exactly ".json", the modification time is readable, and that
time lies within [startTime, endTime] inclusive; when any condition
fails the finder is left entirely unchanged. -/
theorem onFile_selection (finder : JsonFileFinder) (f : CfFile) (p : String) :
    (p ∈ (OnFile finder f).files ↔
      p ∈ finder.files
      ∨ (Keeps finder.startTime finder.endTime f
          ∧ p = normalizeSlashes f.path))
    ∧ (¬ Keeps finder.startTime finder.endTime f → OnFile finder f = finder) := by
  refine ⟨?_, onFile_skips finder f⟩
  by_cases hk : Keeps finder.startTime finder.endTime f
  · rw [onFile_keeps finder f hk]
    dsimp only
    rw [mem_setInsert]
    constructor
    · rintro (h | h)
      · exact Or.inr ⟨hk, h⟩
      · exact Or.inl h
    · rintro (h | ⟨_, h⟩)
      · exact Or.inr h
      · exact Or.inl h
  · rw [onFile_skips finder f hk]
    constructor
    · exact fun h => Or.inl h
    · rintro (h | ⟨hk2, _⟩)
      · exact h
      · exact absurd hk2 hk

/-- Witness for C10 at concrete inputs (a file with a non-json extension
is dropped and leaves the finder unchanged). -/
theorem onFile_selection_witness :
    ("x" ∈ (OnFile { startTime := 0, endTime := 10, files := [] }
        ⟨"x", some ".txt", some 5⟩).files ↔
      "x" ∈ ([] : List String)
      ∨ (Keeps 0 10 ⟨"x", some ".txt", some 5⟩ ∧ "x" = normalizeSlashes "x"))
    ∧ OnFile { startTime := 0, endTime := 10, files := [] }
        ⟨"x", some ".txt", some 5⟩
        = { startTime := 0, endTime := 10, files := [] } :=
  ⟨(onFile_selection { startTime := 0, endTime := 10, files := [] }
      ⟨"x", some ".txt", some 5⟩ "x").1,
   (onFile_selection { startTime := 0, endTime := 10, files := [] }
      ⟨"x", some ".txt", some 5⟩ "x").2
     (fun hk => absurd hk.1 (by decide))⟩

/-! ## Order independence of the run (C5) -/

/-- The cf_traverse pass: every discovered file is offered to OnFile in
file-system order. -/
def runFinder (finder : JsonFileFinder) (fs : List CfFile) : JsonFileFinder :=
  fs.foldl OnFile finder

theorem runFinder_times : ∀ (fs : List CfFile) (finder : JsonFileFinder),
    (runFinder finder fs).startTime = finder.startTime
    ∧ (runFinder finder fs).endTime = finder.endTime := by
  intro fs
  induction fs with
  | nil => intro finder; exact ⟨rfl, rfl⟩
  | cons f fs ih =>
    intro finder
    have h1 : (OnFile finder f).startTime = finder.startTime
        ∧ (OnFile finder f).endTime = finder.endTime := by
      by_cases hk : Keeps finder.startTime finder.endTime f
      · rw [onFile_keeps finder f hk]; exact ⟨rfl, rfl⟩
      · rw [onFile_skips finder f hk]; exact ⟨rfl, rfl⟩
    have h2 := ih (OnFile finder f)
    refine ⟨?_, ?_⟩
    · rw [runFinder, List.foldl_cons]
      rw [runFinder] at h2
      rw [h2.1, h1.1]
    · rw [runFinder, List.foldl_cons]
      rw [runFinder] at h2
      rw [h2.2, h1.2]

theorem mem_runFinder (p : String) : ∀ (fs : List CfFile)
    (finder : JsonFileFinder),
    p ∈ (runFinder finder fs).files ↔
      p ∈ finder.files
      ∨ ∃ f, f ∈ fs ∧ Keeps finder.startTime finder.endTime f
          ∧ p = normalizeSlashes f.path := by
  intro fs
  induction fs with
  | nil =>
    intro finder
    simp [runFinder]
  | cons f fs ih =>
    intro finder
    by_cases hk : Keeps finder.startTime finder.endTime f
    · rw [runFinder, List.foldl_cons, onFile_keeps finder f hk]
      have hih := ih { finder with
        files := setInsert (normalizeSlashes f.path) finder.files }
      rw [runFinder] at hih
      rw [hih]
      dsimp only
      rw [mem_setInsert]
      constructor
      · rintro ((h | h) | ⟨f2, hf2, hk2, hp⟩)
        · exact Or.inr ⟨f, List.mem_cons_self f fs, hk, h⟩
        · exact Or.inl h
        · exact Or.inr ⟨f2, List.mem_cons_of_mem f hf2, hk2, hp⟩
      · rintro (h | ⟨f2, hf2, hk2, hp⟩)
        · exact Or.inl (Or.inr h)
        · rcases List.mem_cons.mp hf2 with hf | hf
          · subst hf; exact Or.inl (Or.inl hp)
          · exact Or.inr ⟨f2, hf, hk2, hp⟩
    · rw [runFinder, List.foldl_cons, onFile_skips finder f hk]
      have hih := ih finder
      rw [runFinder] at hih
      rw [hih]
      constructor
      · rintro (h | ⟨f2, hf2, hk2, hp⟩)
        · exact Or.inl h
        · exact Or.inr ⟨f2, List.mem_cons_of_mem f hf2, hk2, hp⟩
      · rintro (h | ⟨f2, hf2, hk2, hp⟩)
        · exact Or.inl h
        · rcases List.mem_cons.mp hf2 with hf | hf
          · subst hf; exact absurd hk2 hk
          · exact Or.inr ⟨f2, hf, hk2, hp⟩

theorem runFinder_sorted : ∀ (fs : List CfFile) (finder : JsonFileFinder),
    finder.files.Sorted (· < ·) →
    (runFinder finder fs).files.Sorted (· < ·) := by
  intro fs
  induction fs with
  | nil => intro finder h; exact h
  | cons f fs ih =>
    intro finder h
    rw [runFinder, List.foldl_cons]
    refine ih (OnFile finder f) ?_
    by_cases hk : Keeps finder.startTime finder.endTime f
    · rw [onFile_keeps finder f hk]
      exact sorted_setInsert _ h
    · rw [onFile_skips finder f hk]
      exact h

/-- C5.  Order independence: offering the same set of discovered files to
the finder in any file-system order yields the same selected path set
(std::set keeps them sorted), hence the analysis run over the selection —
events, names, diagnostics and return code — is identical. -/
theorem analysis_order_independent (parse : ParserModel)
    (read : String → String) (s0 e0 : Int) (fs1 fs2 : List CfFile)
    (hperm : fs1.Perm fs2) :
    (runFinder { startTime := s0, endTime := e0, files := [] } fs1).files
      = (runFinder { startTime := s0, endTime := e0, files := [] } fs2).files
    ∧ runAnalyze parse read
        (runFinder { startTime := s0, endTime := e0, files := [] } fs1).files
      = runAnalyze parse read
        (runFinder { startTime := s0, endTime := e0, files := [] } fs2).files := by
  have hs1 : (runFinder { startTime := s0, endTime := e0, files := [] }
      fs1).files.Sorted (· < ·) :=
    runFinder_sorted fs1 _ (by simp)
  have hs2 : (runFinder { startTime := s0, endTime := e0, files := [] }
      fs2).files.Sorted (· < ·) :=
    runFinder_sorted fs2 _ (by simp)
  haveI : IsAntisymm String (· < ·) :=
    ⟨fun a b h1 h2 => absurd h2 (lt_asymm h1)⟩
  haveI : IsIrrefl String (· < ·) := ⟨lt_irrefl⟩
  have hfiles : (runFinder { startTime := s0, endTime := e0, files := [] }
      fs1).files
      = (runFinder { startTime := s0, endTime := e0, files := [] } fs2).files := by
    refine List.eq_of_perm_of_sorted ?_ hs1 hs2
    refine List.perm_of_nodup_nodup_toFinset_eq hs1.nodup hs2.nodup ?_
    refine Finset.ext ?_
    intro a
    simp only [List.mem_toFinset]
    rw [mem_runFinder, mem_runFinder]
    dsimp only
    constructor
    · rintro (h | ⟨f2, hf2, hk2, hp⟩)
      · exact absurd h (List.not_mem_nil a)
      · exact Or.inr ⟨f2, hperm.mem_iff.mp hf2, hk2, hp⟩
    · rintro (h | ⟨f2, hf2, hk2, hp⟩)
      · exact absurd h (List.not_mem_nil a)
      · exact Or.inr ⟨f2, hperm.mem_iff.mpr hf2, hk2, hp⟩
  exact ⟨hfiles, by rw [hfiles]⟩

/-- Witness for C5 at concrete inputs: the same two trace files offered
in both orders. -/
theorem analysis_order_independent_witness :
    ([⟨"b.json", some ".json", some 5⟩, ⟨"a.json", some ".json", some 6⟩] :
        List CfFile).Perm
      [⟨"a.json", some ".json", some 6⟩, ⟨"b.json", some ".json", some 5⟩]
    ∧ ((runFinder { startTime := 0, endTime := 10, files := [] }
          [⟨"b.json", some ".json", some 5⟩, ⟨"a.json", some ".json", some 6⟩]).files
        = (runFinder { startTime := 0, endTime := 10, files := [] }
          [⟨"a.json", some ".json", some 6⟩, ⟨"b.json", some ".json", some 5⟩]).files
      ∧ runAnalyze parseNone (fun _ => "")
          (runFinder { startTime := 0, endTime := 10, files := [] }
            [⟨"b.json", some ".json", some 5⟩, ⟨"a.json", some ".json", some 6⟩]).files
        = runAnalyze parseNone (fun _ => "")
          (runFinder { startTime := 0, endTime := 10, files := [] }
            [⟨"a.json", some ".json", some 6⟩, ⟨"b.json", some ".json", some 5⟩]).files) :=
  ⟨by decide,
   analysis_order_independent parseNone (fun _ => "") 0 10
     [⟨"b.json", some ".json", some 5⟩, ⟨"a.json", some ".json", some 6⟩]
     [⟨"a.json", some ".json", some 6⟩, ⟨"b.json", some ".json", some 5⟩]
     (by decide)⟩

/-! ## Aggregator (C6)

DoAnalysis lives in Analysis.cpp, which is not in this tree; the
per-kind-and-name running-total map is modelled from spec §4.4. -/

/-- Modelled from the spec: one accumulation step of the keyed
running-total map (§4.4): the entry for (kind, detail handle) gains the
event's duration and one occurrence. -/
def aggStep (m : BuildEventType → Nat → Int × Nat) (ev : BuildEvent) :
    BuildEventType → Nat → Int × Nat :=
  fun k d =>
    if k = ev.type ∧ d = ev.detailIndex then
      ((m k d).1 + ev.dur, (m k d).2 + 1)
    else m k d

/-- Modelled from the spec: §4.4 — a single pass over all events of the
forest accumulating (total duration, occurrence count) per
(kind, detail handle) pair. -/
def aggregate (events : List BuildEvent) : BuildEventType → Nat → Int × Nat :=
  events.foldl aggStep (fun _ _ => (0, 0))

/-- The events grouped under one (kind, detail handle) pair. -/
def matchesKey (k : BuildEventType) (d : Nat) (ev : BuildEvent) : Bool :=
  decide (k = ev.type ∧ d = ev.detailIndex)

theorem aggregate_from (k : BuildEventType) (d : Nat) :
    ∀ (events : List BuildEvent) (m : BuildEventType → Nat → Int × Nat),
    (events.foldl aggStep m) k d
      = ((m k d).1 + ((events.filter (matchesKey k d)).map BuildEvent.dur).sum,
         (m k d).2 + (events.filter (matchesKey k d)).length) := by
  intro events
  induction events with
  | nil => intro m; simp
  | cons ev evs ih =>
    intro m
    rw [List.foldl_cons, ih (aggStep m ev)]
    by_cases hm : k = ev.type ∧ d = ev.detailIndex
    · have hb : matchesKey k d ev = true := by
        simp only [matchesKey, decide_eq_true_eq]; exact hm
      have ha : aggStep m ev k d = ((m k d).1 + ev.dur, (m k d).2 + 1) := by
        simp [aggStep, hm]
      have hf : (ev :: evs).filter (matchesKey k d)
          = ev :: evs.filter (matchesKey k d) := by
        simp [List.filter_cons, hb]
      rw [ha, hf]
      simp only [List.map_cons, List.sum_cons, List.length_cons, Prod.mk.injEq]
      constructor
      · omega
      · omega
    · have hb : matchesKey k d ev = false := by
        simp only [matchesKey, decide_eq_false_iff_not]; exact hm
      have ha : aggStep m ev k d = m k d := by
        simp [aggStep, hm]
      have hf : (ev :: evs).filter (matchesKey k d)
          = evs.filter (matchesKey k d) := by
        simp [List.filter_cons, hb]
      rw [ha, hf]

/-- C6.  Aggregation additivity: the aggregated entry of every
(kind, detail handle) pair is the sum of the durations of all events with
that pair together with their number; in particular two translation
units each contributing one InstantiateFunction event named "foo" with
durations 100 and 250 (the name interned through the shared table) total
350 with count 2. -/
theorem aggregation_additivity :
    (∀ (events : List BuildEvent) (k : BuildEventType) (d : Nat),
      aggregate events k d
        = (((events.filter (matchesKey k d)).map BuildEvent.dur).sum,
           (events.filter (matchesKey k d)).length))
    ∧ aggregate
        (parseFileEvents
          (parseFileEvents []
            [{ type := .kInstantiateFunction, ts := 0, dur := 100,
               detailIndex := (intern [] "foo").2 }])
          [{ type := .kInstantiateFunction, ts := 0, dur := 250,
             detailIndex := (intern (intern [] "foo").1 "foo").2 }])
        .kInstantiateFunction (intern [] "foo").2
      = (350, 2) := by
  constructor
  · intro events k d
    rw [aggregate, aggregate_from]
    simp
  · decide

/-! ## CompareIgnoreNewlines (src/main.cpp 41-59) (C9) -/

/-- CompareIgnoreNewlines (src/main.cpp lines 41-59) on the two
character sequences.  Each loop iteration skips at most one CR per
string, compares the current characters when both indices are still in
range, and advances both indices; the source's index bookkeeping —
including the way a CR skipped at the very end pushes the index past the
length so that the final ia==alen / ib==blen check fails — is reproduced
exactly. -/
def CompareIgnoreNewlines : List Char → List Char → Bool
  | [], [] => true
  | [], _ :: _ => false
  | _ :: _, [] => false
  | a :: as, b :: bs =>
    if a = '\r' then
      match as with
      | [] => false
      | a2 :: as2 =>
        if b = '\r' then
          match bs with
          | [] => false
          | b2 :: bs2 => decide (a2 = b2) && CompareIgnoreNewlines as2 bs2
        else decide (a2 = b) && CompareIgnoreNewlines as2 bs
    else
      if b = '\r' then
        match bs with
        | [] => false
        | b2 :: bs2 => decide (a = b2) && CompareIgnoreNewlines as bs2
      else decide (a = b) && CompareIgnoreNewlines as bs

/-- The string with every carriage return deleted. -/
def removeCR (l : List Char) : List Char :=
  l.filter (fun c => decide (c ≠ '\r'))

/-- Every carriage return is immediately followed by a newline (the
CRLF-versus-LF situation the comparison is used for). -/
def noLoneCR : List Char → Bool
  | [] => true
  | c :: rest =>
    if c = '\r' then
      match rest with
      | [] => false
      | c2 :: rest2 => decide (c2 = '\n') && noLoneCR rest2
    else noLoneCR rest

theorem removeCR_cons_cr (l : List Char) :
    removeCR ('\r' :: l) = removeCR l := by
  simp [removeCR]

theorem removeCR_cons_ne {c : Char} (hc : ¬ c = '\r') (l : List Char) :
    removeCR (c :: l) = c :: removeCR l := by
  simp [removeCR, hc]

theorem noLoneCR_cons_ne {c : Char} (hc : ¬ c = '\r') (rest : List Char) :
    noLoneCR (c :: rest) = noLoneCR rest := by
  cases rest with
  | nil => simp [noLoneCR, hc]
  | cons c2 rest2 => simp [noLoneCR, hc]

theorem cmp_noCR {ca cb : Char} (as bs : List Char)
    (hca : ¬ ca = '\r') (hcb : ¬ cb = '\r') :
    CompareIgnoreNewlines (ca :: as) (cb :: bs)
      = (decide (ca = cb) && CompareIgnoreNewlines as bs) := by
  cases as with
  | nil =>
    cases bs with
    | nil => simp [CompareIgnoreNewlines, hca, hcb]
    | cons b2 bs2 => simp [CompareIgnoreNewlines, hca, hcb]
  | cons a2 as2 =>
    cases bs with
    | nil => simp [CompareIgnoreNewlines, hca, hcb]
    | cons b2 bs2 => simp [CompareIgnoreNewlines, hca, hcb]

theorem cmp_skipA (a2 : Char) (as2 : List Char) {cb : Char}
    (bs : List Char) (hcb : ¬ cb = '\r') :
    CompareIgnoreNewlines ('\r' :: a2 :: as2) (cb :: bs)
      = (decide (a2 = cb) && CompareIgnoreNewlines as2 bs) := by
  cases bs with
  | nil => simp [CompareIgnoreNewlines, hcb]
  | cons b2 bs2 => simp [CompareIgnoreNewlines, hcb]

theorem cmp_skipB {ca : Char} (as : List Char) (b2 : Char) (bs2 : List Char)
    (hca : ¬ ca = '\r') :
    CompareIgnoreNewlines (ca :: as) ('\r' :: b2 :: bs2)
      = (decide (ca = b2) && CompareIgnoreNewlines as bs2) := by
  cases as with
  | nil => simp [CompareIgnoreNewlines, hca]
  | cons a2 as2 => simp [CompareIgnoreNewlines, hca]

theorem removeCR_ne_nil : ∀ {l : List Char}, noLoneCR l = true → l ≠ [] →
    removeCR l ≠ [] := by
  intro l h hne
  cases l with
  | nil => exact absurd rfl hne
  | cons c rest =>
    by_cases hc : c = '\r'
    · subst hc
      cases rest with
      | nil =>
        rw [show noLoneCR ['\r'] = false from rfl] at h
        exact Bool.noConfusion h
      | cons c2 rest2 =>
        rw [show noLoneCR ('\r' :: c2 :: rest2)
              = (decide (c2 = '\n') && noLoneCR rest2) from rfl,
            Bool.and_eq_true, decide_eq_true_eq] at h
        obtain ⟨h2, _⟩ := h
        subst h2
        rw [removeCR_cons_cr, removeCR_cons_ne (by decide)]
        exact List.cons_ne_nil _ _
    · rw [removeCR_cons_ne hc]
      exact List.cons_ne_nil _ _

theorem cmpIgnoreNewlines_aux : ∀ (n : Nat) (a b : List Char),
    a.length + b.length ≤ n → noLoneCR a = true → noLoneCR b = true →
    (CompareIgnoreNewlines a b = true ↔ removeCR a = removeCR b) := by
  intro n
  induction n with
  | zero =>
    intro a b hlen _ _
    cases a with
    | nil =>
      cases b with
      | nil => simp [CompareIgnoreNewlines, removeCR]
      | cons cb bs => simp at hlen
    | cons ca as => simp at hlen
  | succ n ih =>
    intro a b hlen ha hb
    cases a with
    | nil =>
      cases b with
      | nil => simp [CompareIgnoreNewlines, removeCR]
      | cons cb bs =>
        rw [show CompareIgnoreNewlines [] (cb :: bs) = false from rfl]
        simp only [Bool.false_eq_true, false_iff]
        intro hr
        rw [show removeCR ([] : List Char) = [] from rfl] at hr
        exact removeCR_ne_nil hb (List.cons_ne_nil cb bs) hr.symm
    | cons ca as =>
      cases b with
      | nil =>
        rw [show CompareIgnoreNewlines (ca :: as) [] = false from rfl]
        simp only [Bool.false_eq_true, false_iff]
        intro hr
        rw [show removeCR ([] : List Char) = [] from rfl] at hr
        exact removeCR_ne_nil ha (List.cons_ne_nil ca as) hr
      | cons cb bs =>
        by_cases hca : ca = '\r'
        · subst hca
          cases as with
          | nil =>
            rw [show noLoneCR ['\r'] = false from rfl] at ha
            exact Bool.noConfusion ha
          | cons a2 as2 =>
            rw [show noLoneCR ('\r' :: a2 :: as2)
                  = (decide (a2 = '\n') && noLoneCR as2) from rfl,
                Bool.and_eq_true, decide_eq_true_eq] at ha
            obtain ⟨ha2, has2⟩ := ha
            subst ha2
            by_cases hcb : cb = '\r'
            · subst hcb
              cases bs with
              | nil =>
                rw [show noLoneCR ['\r'] = false from rfl] at hb
                exact Bool.noConfusion hb
              | cons b2 bs2 =>
                rw [show noLoneCR ('\r' :: b2 :: bs2)
                      = (decide (b2 = '\n') && noLoneCR bs2) from rfl,
                    Bool.and_eq_true, decide_eq_true_eq] at hb
                obtain ⟨hb2, hbs2⟩ := hb
                subst hb2
                have hih := ih as2 bs2
                  (by simp only [List.length_cons] at hlen ⊢; omega) has2 hbs2
                rw [show CompareIgnoreNewlines ('\r' :: '\n' :: as2)
                      ('\r' :: '\n' :: bs2)
                    = (decide (('\n' : Char) = '\n')
                        && CompareIgnoreNewlines as2 bs2) from rfl]
                rw [removeCR_cons_cr, removeCR_cons_cr,
                    removeCR_cons_ne (by decide), removeCR_cons_ne (by decide)]
                simp [hih]
            · have hbs : noLoneCR bs = true := by
                rw [noLoneCR_cons_ne hcb] at hb
                exact hb
              have hih := ih as2 bs
                (by simp only [List.length_cons] at hlen ⊢; omega) has2 hbs
              rw [cmp_skipA '\n' as2 bs hcb]
              rw [removeCR_cons_cr, removeCR_cons_ne (by decide),
                  removeCR_cons_ne hcb]
              simp [hih]
        · by_cases hcb : cb = '\r'
          · subst hcb
            cases bs with
            | nil =>
              rw [show noLoneCR ['\r'] = false from rfl] at hb
              exact Bool.noConfusion hb
            | cons b2 bs2 =>
              rw [show noLoneCR ('\r' :: b2 :: bs2)
                    = (decide (b2 = '\n') && noLoneCR bs2) from rfl,
                  Bool.and_eq_true, decide_eq_true_eq] at hb
              obtain ⟨hb2, hbs2⟩ := hb
              subst hb2
              have has : noLoneCR as = true := by
                rw [noLoneCR_cons_ne hca] at ha
                exact ha
              have hih := ih as bs2
                (by simp only [List.length_cons] at hlen ⊢; omega) has hbs2
              rw [cmp_skipB as '\n' bs2 hca]
              rw [removeCR_cons_ne hca, removeCR_cons_cr,
                  removeCR_cons_ne (by decide)]
              simp [hih]
          · have has : noLoneCR as = true := by
              rw [noLoneCR_cons_ne hca] at ha
              exact ha
            have hbs : noLoneCR bs = true := by
              rw [noLoneCR_cons_ne hcb] at hb
              exact hb
            have hih := ih as bs
              (by simp only [List.length_cons] at hlen ⊢; omega) has hbs
            rw [cmp_noCR as bs hca hcb]
            rw [removeCR_cons_ne hca, removeCR_cons_ne hcb]
            simp [hih]


/-- C9 counterexample: two identical one-character strings consisting of
a bare CR.  Deleting every CR from each yields equal (empty) strings, yet
CompareIgnoreNewlines returns false: skipping the final CR pushes the
index past the end, so the closing index check fails. -/
theorem compare_ignore_newlines_counterexample :
    CompareIgnoreNewlines ['\r'] ['\r'] = false
    ∧ removeCR ['\r'] = removeCR ['\r'] := by
  exact ⟨by decide, rfl⟩

/-- C9 (amended).  For strings in which every carriage return is
immediately followed by a newline (in particular for texts differing only
in CRLF versus LF line endings), CompareIgnoreNewlines returns true
exactly when the two strings are equal after deleting every CR.  (On a
string with a lone trailing CR the function can return false even for
identical inputs.) -/
theorem compare_ignore_newlines_modulo_cr (a b : List Char)
    (ha : noLoneCR a = true) (hb : noLoneCR b = true) :
    CompareIgnoreNewlines a b = true ↔ removeCR a = removeCR b :=
  cmpIgnoreNewlines_aux (a.length + b.length) a b le_rfl ha hb

/-- Witness for the amended C9 at concrete inputs: "a\r\n" versus "a\n". -/
theorem compare_ignore_newlines_modulo_cr_witness :
    (noLoneCR ['a', '\r', '\n'] = true ∧ noLoneCR ['a', '\n'] = true)
    ∧ (CompareIgnoreNewlines ['a', '\r', '\n'] ['a', '\n'] = true
        ↔ removeCR ['a', '\r', '\n'] = removeCR ['a', '\n']) :=
  ⟨⟨by decide, by decide⟩,
    compare_ignore_newlines_modulo_cr ['a', '\r', '\n'] ['a', '\n']
      (by decide) (by decide)⟩

end ClangBuildAnalyzer
